import Mathlib

/-!
Verification of the tsinfer-benchmarks inference driver (`run_inference.py`).

The development shallowly embeds the numeric core of the script over `ℚ`
(idealised exact arithmetic in place of IEEE doubles), embeds the staged
pipeline of `run` as an explicit event trace parametrised by the behaviour of
the external tsinfer engine, and proves the specification claims about it.
-/

/-- Embeds `np.diff l`: successive differences `l[i+1] - l[i]`. -/
def diffL (l : List ℚ) : List ℚ :=
  (l.zip l.tail).map fun p => p.2 - p.1

/-- Embeds `np.cumsum l`: running partial sums. -/
def cumsum : List ℚ → List ℚ
  | [] => []
  | a :: l => a :: (cumsum l).map (a + ·)

/-- Embeds `np.interp x xp fp` for monotone breakpoints `xp`: piecewise-linear
interpolation with clamping to `fp.head`/`fp.getLast` outside the breakpoint
range.  Queries exactly on a breakpoint take that breakpoint's value. -/
def interp (x : ℚ) : List ℚ → List ℚ → ℚ
  | [_], f0 :: _ => f0
  | x0 :: x1 :: xs, f0 :: f1 :: fs =>
    if x ≤ x0 then f0
    else if x ≤ x1 then f0 + (x - x0) * (f1 - f0) / (x1 - x0)
    else interp x (x1 :: xs) (f1 :: fs)
  | _, _ => 0

/-- The recombination-map collaborator: breakpoint physical positions
(`get_positions()`) and per-interval rates (`get_rates()`), of equal length,
the final rate being unused. -/
structure RecombinationMap where
  positions : List ℚ
  rates : List ℚ

/-- Embeds `physical_to_genetic` (run_inference.py lines 123-127):
cumulative sums of `np.diff(map_pos) * map_rates[:-1]` with a leading 0,
then `np.interp` of each query position over the breakpoints. -/
def physical_to_genetic (rm : RecombinationMap) (input_physical_positions : List ℚ) :
    List ℚ :=
  let map_genetic_positions :=
    0 :: cumsum (List.zipWith (fun d r => d * r) (diffL rm.positions) rm.rates.dropLast)
  input_physical_positions.map fun x => interp x rm.positions map_genetic_positions

/-- Modelled from the spec: the genetic position of a query `x` as the
cumulative sum of (Δphysical × local rate) over all preceding map intervals,
linear within the interval containing `x` (equivalently the integral of the
step-function of rates from the first breakpoint up to `x`). -/
def specGenPos (x : ℚ) : List ℚ → List ℚ → ℚ
  | p0 :: p1 :: ps, r :: rs => r * (min x p1 - min x p0) + specGenPos x (p1 :: ps) rs
  | _, _ => 0

/-- Embeds `np.sort` (the sort underlying `np.quantile`). -/
def sortQ (l : List ℚ) : List ℚ := l.insertionSort (· ≤ ·)

/-- Embeds `np.quantile(l, 0.5)` (linear interpolation at the midpoint), i.e.
the median: middle element of the sorted list for odd length, average of the
two middle elements for even length. -/
def medianQ (l : List ℚ) : ℚ :=
  let s := sortQ l
  let n := l.length
  if n % 2 = 1 then s.getD (n / 2) 0
  else (s.getD (n / 2 - 1) 0 + s.getD (n / 2) 0) / 2

/-- Embeds `np.min` on a nonempty array. -/
def aminQ : List ℚ → ℚ
  | [] => 0
  | a :: l => l.foldl min a

/-- Embeds `int(np.ceil(-np.log10 q))` for a positive rational `q`:
`⌈-log₁₀ q⌉ = -⌊log₁₀ q⌋ = -Int.log 10 q`. -/
def ceilNegLog10 (q : ℚ) : ℤ := -Int.log 10 q

/-- Embeds the precision selection of `run` (run_inference.py lines 25-35).
With an explicit override it is returned unchanged.  Otherwise
`min_rho = int(np.ceil(-np.min(np.log10(rho))))` and
`av_min = int(np.ceil(-np.log10(min(1, ma, ms) * np.quantile(rho, 0.5))))`
are combined as `max(min_rho, av_min) + 3`, where `rho = rec_rate[1:]`.
On a zero or negative input to `np.log10` the float pipeline produces `-inf`
resp. `NaN`, which the final `int(...)` conversion rejects at run time
(`OverflowError` / `ValueError`); those runtime failures are the error
branches (NaN is detected first, as `np.min` propagates NaN over `-inf`). -/
def selectPrecision (rec_rate : List ℚ) (ma_mut_rate ms_mut_rate : ℚ)
    (precOverride : Option ℤ) : Except String ℤ :=
  match precOverride with
  | some p => .ok p
  | none =>
    let rho := rec_rate.tail
    let m := min 1 (min ma_mut_rate ms_mut_rate) * medianQ rho
    if ∃ x ∈ rho, x < 0 then .error "cannot convert float NaN to integer"
    else if ∃ x ∈ rho, x = 0 then .error "cannot convert float infinity to integer"
    else if m < 0 then .error "cannot convert float NaN to integer"
    else if m = 0 then .error "cannot convert float infinity to integer"
    else .ok (max (ceilNegLog10 (aminQ rho)) (ceilNegLog10 m) + 3)

/-- Computation rule for `Int.log 10` on rationals, via the characterising
powers-of-ten bracket. -/
lemma intLog10_eq {q : ℚ} {z : ℤ} (h1 : (10:ℚ)^z ≤ q) (h2 : q < (10:ℚ)^(z+1)) :
    Int.log 10 q = z := by
  have hq : 0 < q := lt_of_lt_of_le (zpow_pos (by norm_num) z) h1
  have hle : z ≤ Int.log 10 q := by
    rw [← Int.zpow_le_iff_le_log (by norm_num) hq]
    exact_mod_cast h1
  have hlt : Int.log 10 q < z + 1 := by
    rw [← Int.lt_zpow_iff_log_lt (by norm_num) hq]
    exact_mod_cast h2
  omega

/-- Computation rule for `ceilNegLog10`. -/
lemma ceilNegLog10_eq {q : ℚ} {z : ℤ} (h1 : (10:ℚ)^(-z) ≤ q) (h2 : q < (10:ℚ)^(-z+1)) :
    ceilNegLog10 q = z := by
  rw [ceilNegLog10, intLog10_eq h1 h2, neg_neg]

/-- `Int.log` is invariant under the cast `ℚ → ℝ` (on positive inputs). -/
lemma intLog_ratCast (q : ℚ) (hq : 0 < q) : Int.log 10 ((q : ℝ)) = Int.log 10 q := by
  have hq' : (0:ℝ) < (q:ℝ) := by exact_mod_cast hq
  apply le_antisymm
  · rw [← Int.zpow_le_iff_le_log (by norm_num) hq]
    have h := Int.zpow_log_le_self (b := 10) (r := (q:ℝ)) (by norm_num) hq'
    rw [← Rat.cast_le (K := ℝ)]
    push_cast at h ⊢
    exact h
  · rw [← Int.zpow_le_iff_le_log (by norm_num) hq']
    have h := Int.zpow_log_le_self (b := 10) (r := q) (by norm_num) hq
    rw [← Rat.cast_le (K := ℝ)] at h
    push_cast at h ⊢
    exact h

/-- The idealised real-number reading `⌈-log₁₀ q⌉` of the source expression
`int(np.ceil(-np.log10(q)))` agrees with the rational embedding. -/
lemma ceil_neg_logb_eq_ceilNegLog10 (q : ℚ) (hq : 0 < q) :
    ⌈-Real.logb 10 (q : ℝ)⌉ = ceilNegLog10 q := by
  have h0 : (0:ℝ) ≤ (q:ℝ) := by positivity
  rw [Int.ceil_neg, ceilNegLog10]
  have h : ⌊Real.logb 10 (q:ℝ)⌋ = Int.log 10 ((q:ℝ)) := by
    have := Real.floor_logb_natCast (b := 10) (r := (q:ℝ)) h0
    simpa using this
  rw [h, intLog_ratCast q hq]

/-- Embeds Python `s.endswith(suffix)` on file-path strings. -/
def endsWithStr (suffix s : String) : Bool :=
  suffix.toList.isSuffixOf s.toList

/-- Embeds the Python slice `s[0:-n]` (for `0 < n ≤ len(s)`): the string
without its last `n` characters. -/
def dropRightStr (n : ℕ) (s : String) : String :=
  String.mk (s.toList.take (s.toList.length - n))

/-- The loaded sample-data collaborator (`tsinfer.load` result): site physical
positions, the per-site inference-eligibility mask, the total sequence length
and the (optional) persisted file path. -/
structure SampleData where
  sites_position : List ℚ
  sites_inference : List Bool
  sequence_length : ℚ
  path : Option String

/-- Embeds the `Params` namedtuple. -/
structure Params where
  sample_data : SampleData
  rec_rate : List ℚ
  ma_mut_rate : ℚ
  ms_mut_rate : ℚ
  precision : Option ℤ
  num_threads : ℕ

/-- One local tree of a tree sequence, as consumed by the statistics loop of
`run`: its genomic span and the value of `tree.num_children(n)` for each node
`n` yielded by `tree.nodes()`. -/
structure TreeData where
  span : ℚ
  childCounts : List ℕ

/-- The tree-sequence collaborator, reduced to the observations `run` makes
of it: the iterated local trees and the three counters read off for the
result record. -/
structure TreeSeq where
  trees : List TreeData
  num_edges : ℕ
  num_mutations : ℕ
  num_trees : ℕ

/-- The external tsinfer engine: the outcome of each of the three staged
calls (`generate_ancestors`, `match_ancestors`, `match_samples`); an `error`
models the stage raising. -/
structure Engine where
  gaResult : Except String Unit
  maResult : Except String TreeSeq
  msResult : Except String TreeSeq

/-- The remaining external collaborators used by `run`: `simplify`,
`kc_distance`, `tskit.load` (with `none` modelling `FileNotFoundError`),
`os.path.getsize` and the CPU-time reading. -/
structure Env where
  simplify : TreeSeq → TreeSeq
  kcDistance : TreeSeq → TreeSeq → ℚ
  loadTrees : String → Option TreeSeq
  getsize : String → ℕ
  processTime : ℚ

/-- Observable engine-stage events of one pipeline run, in invocation order,
with the numeric arguments passed to the matching stages. -/
inductive Event where
  | gaCall (numThreads : ℕ) (ancPath : Option String)
  | gaRet (ok : Bool)
  | maCall (recombRate : List ℚ) (mutRate : ℚ) (prec : ℤ) (numThreads : ℕ)
  | maRet (ok : Bool)
  | msCall (recombRate : List ℚ) (mutRate : ℚ) (prec : ℤ) (numThreads : ℕ)
  | msRet (ok : Bool)
  deriving DecidableEq

/-- Embeds the filter `if n_children > 0` of the statistics loop: the child
counts of the internal (non-leaf) nodes of one local tree. -/
def internalCounts (t : TreeData) : List ℕ :=
  t.childCounts.filter (fun c => decide (0 < c))

/-- Embeds the accumulator `nc_sum`: Σ children × span over internal nodes. -/
def ncSum (trees : List TreeData) : ℚ :=
  (trees.map fun t => ((internalCounts t).map fun (c : ℕ) => (c : ℚ) * t.span).sum).sum

/-- Embeds the accumulator `nc_sum_sq`: Σ children² × span. -/
def ncSumSq (trees : List TreeData) : ℚ :=
  (trees.map fun t => ((internalCounts t).map fun (c : ℕ) => (c : ℚ)^2 * t.span).sum).sum

/-- Embeds the accumulator `nc_tot`: Σ span over internal-node occurrences. -/
def ncTot (trees : List TreeData) : ℚ :=
  (trees.map fun t => ((internalCounts t).map fun _ => t.span).sum).sum

/-- Embeds `nc_mean = nc_sum / nc_tot`. -/
def ncMean (trees : List TreeData) : ℚ := ncSum trees / ncTot trees

/-- Embeds `nc_var = nc_sum_sq / nc_tot - nc_mean ** 2`. -/
def ncVar (trees : List TreeData) : ℚ := ncSumSq trees / ncTot trees - (ncMean trees)^2

/-- Embeds the `Results` namedtuple. -/
structure Results where
  ma_mut : ℚ
  ms_mut : ℚ
  precision : ℤ
  edges : ℕ
  muts : ℕ
  num_trees : ℕ
  kc : Option ℚ
  mean_node_children : ℚ
  var_node_children : ℚ
  process_time : ℚ
  ts_size : ℕ
  ts_path : String

/-- Embeds `run` (run_inference.py lines 21-120) as a trace-producing state
function: the returned list is the sequence of engine-stage events that the
run performs, and the `Except` value is the returned `Results` record or the
Python exception aborting the run.  The stages are strictly sequenced: each
engine call is emitted together with its return event, and an `error` outcome
of a stage ends the trace.  A `none` sample-data path leaves the local
`inf_prefix` unassigned, so evaluating the `generate_ancestors` path argument
raises `UnboundLocalError` before the engine is ever entered. -/
def run (env : Env) (eng : Engine) (params : Params) : List Event × Except String Results :=
  let rho := params.rec_rate.tail
  if rho = [] then
    ([], .error "IndexError: cannot do a non-empty take from an empty axes")
  else
    let base_rec_prob := medianQ rho
    match selectPrecision params.rec_rate params.ma_mut_rate params.ms_mut_rate
        params.precision with
    | .error e => ([], .error e)
    | .ok precision =>
      match params.sample_data.path with
      | none =>
        ([], .error "UnboundLocalError: local variable inf_prefix referenced before assignment")
      | some path =>
        if ¬ endsWithStr ".samples" path then ([], .error "AssertionError")
        else
          let pfx := dropRightStr 8 path
          let infPfx := pfx ++ "_ma" ++ toString params.ma_mut_rate ++ "_ms" ++
            toString params.ms_mut_rate ++ "_p" ++ toString precision
          let e1 := Event.gaCall params.num_threads (some (infPfx ++ ".ancestors"))
          match eng.gaResult with
          | .error e => ([e1, .gaRet false], .error e)
          | .ok _ =>
            let e2 := Event.maCall params.rec_rate (base_rec_prob * params.ma_mut_rate)
              precision params.num_threads
            match eng.maResult with
            | .error e => ([e1, .gaRet true, e2, .maRet false], .error e)
            | .ok _ =>
              let e3 := Event.msCall params.rec_rate (base_rec_prob * params.ms_mut_rate)
                precision params.num_threads
              match eng.msResult with
              | .error e =>
                ([e1, .gaRet true, e2, .maRet true, e3, .msRet false], .error e)
              | .ok ts =>
                let tr := [e1, .gaRet true, e2, .maRet true, e3, .msRet true]
                let ts_path := infPfx ++ ".trees"
                let sts := env.simplify ts
                if ncTot sts.trees = 0 then
                  (tr, .error "ZeroDivisionError: division by zero")
                else
                  let kc := match env.loadTrees (pfx ++ ".trees") with
                    | none => none
                    | some gt => some (env.kcDistance sts gt)
                  (tr, .ok
                    { ma_mut := params.ma_mut_rate
                      ms_mut := params.ms_mut_rate
                      precision := precision
                      edges := ts.num_edges
                      muts := ts.num_mutations
                      num_trees := ts.num_trees
                      kc := kc
                      mean_node_children := ncMean sts.trees
                      var_node_children := ncVar sts.trees
                      process_time := env.processTime
                      ts_size := env.getsize ts_path
                      ts_path := ts_path })

/-- Embeds the boolean-mask indexing `sd.sites_position[:][sd.sites_inference]`:
the physical positions of the inference-eligible sites. -/
def inferencePositions (sd : SampleData) : List ℚ :=
  ((sd.sites_position.zip sd.sites_inference).filter (fun p => p.2)).map (fun p => p.1)

/-- Embeds `re.search(r'(chr\d+)', filename) is not None`: some occurrence of
the token `chr` immediately followed by a digit. -/
def hasChr : List Char → Bool
  | 'c' :: 'h' :: 'r' :: c :: rest => c.isDigit || hasChr ('h' :: 'r' :: c :: rest)
  | _ :: rest => hasChr rest
  | [] => false

/-- Embeds `match.group(1)` for the first `chr\d+` match: the token `chr`
together with the maximal digit run following it. -/
def chrToken : List Char → String
  | 'c' :: 'h' :: 'r' :: c :: rest =>
    if c.isDigit then
      String.mk ('c' :: 'h' :: 'r' :: c :: (rest.takeWhile Char.isDigit))
    else chrToken ('h' :: 'r' :: c :: rest)
  | _ :: rest => chrToken rest
  | [] => ""

/-- The genetic-map service collaborator, indexed by chromosome token. -/
structure MapService where
  getChromosomeMap : String → RecombinationMap

/-- Embeds the RateArray construction of `setup_sample_file` (lines 138-153):
with a chromosome token, first differences of the genetic positions of the
eligible sites with a `0.0` sentinel; otherwise first differences of the raw
physical positions normalised by the sequence length, with the sentinel. -/
def setupRho (svc : MapService) (filename : String) (sd : SampleData) : List ℚ :=
  if hasChr filename.toList then
    let chr_map := svc.getChromosomeMap (chrToken filename.toList)
    let inference_distances := physical_to_genetic chr_map (inferencePositions sd)
    0 :: diffL inference_distances
  else
    let inference_distances := inferencePositions sd
    0 :: (diffL inference_distances).map (· / sd.sequence_length)

/-- Embeds `setup_sample_file` (lines 130-155): rejects a filename without
the `.samples` suffix, otherwise returns the loaded sample data `sd`, the
RateArray and the base-name `filename[:-len(".samples")]`. -/
def setup_sample_file (svc : MapService) (filename : String) (sd : SampleData) :
    Except String (SampleData × List ℚ × String) :=
  if ¬ endsWithStr ".samples" filename then
    .error "Sample data file must end with .samples"
  else
    .ok (sd, setupRho svc filename sd, dropRightStr 8 filename)

/-- Transitivity of the pointwise order on lists. -/
lemma forall₂_le_trans {l₁ l₂ l₃ : List ℚ} (h₁ : List.Forall₂ (· ≤ ·) l₁ l₂)
    (h₂ : List.Forall₂ (· ≤ ·) l₂ l₃) : List.Forall₂ (· ≤ ·) l₁ l₃ := by
  induction h₁ generalizing l₃ with
  | nil => cases h₂; exact .nil
  | cons hab h ih => cases h₂ with
    | cons hbc h' => exact .cons (hab.trans hbc) (ih h')

/-- Inserting `y ≥ b` into a sorted list dominated below by `b` pointwise
dominates consing `b` on. -/
lemma cons_forall₂_orderedInsert (b y : ℚ) (t : List ℚ) (hby : b ≤ y)
    (hbt : ∀ e ∈ t, b ≤ e) (hs : t.Sorted (· ≤ ·)) :
    List.Forall₂ (· ≤ ·) (b :: t) (t.orderedInsert (· ≤ ·) y) := by
  induction t generalizing b with
  | nil => simpa using hby
  | cons c t ih =>
    by_cases hyc : y ≤ c
    · rw [List.orderedInsert, if_pos hyc]
      exact .cons hby (.cons (le_refl c) (List.forall₂_same.2 fun x _ => le_refl x))
    · rw [List.orderedInsert, if_neg hyc]
      exact .cons (hbt c (by simp)) (ih c (le_of_not_le hyc)
        (List.rel_of_sorted_cons hs) hs.of_cons)

/-- Inserting `x ≤ b` into a list pointwise below a sorted list dominated
below by `b` stays pointwise below consing `b` on. -/
lemma orderedInsert_forall₂_cons (x b : ℚ) {t₁ t₂ : List ℚ}
    (h12 : List.Forall₂ (· ≤ ·) t₁ t₂) (hxb : x ≤ b)
    (hbt : ∀ e ∈ t₂, b ≤ e) (hs : t₂.Sorted (· ≤ ·)) :
    List.Forall₂ (· ≤ ·) (t₁.orderedInsert (· ≤ ·) x) (b :: t₂) := by
  induction h12 generalizing b with
  | nil => simpa using hxb
  | @cons c d l₁ l₂ hcd h ih =>
    by_cases hxc : x ≤ c
    · rw [List.orderedInsert, if_pos hxc]
      exact .cons hxb (.cons hcd h)
    · rw [List.orderedInsert, if_neg hxc]
      exact .cons ((le_of_not_le hxc).trans hxb)
        (ih d (hxb.trans (hbt d (by simp))) (List.rel_of_sorted_cons hs) hs.of_cons)

/-- Ordered insertion is monotone for the pointwise order on sorted lists. -/
lemma orderedInsert_forall₂ (x y : ℚ) {s₁ s₂ : List ℚ}
    (h : List.Forall₂ (· ≤ ·) s₁ s₂) (hxy : x ≤ y)
    (hs₁ : s₁.Sorted (· ≤ ·)) (hs₂ : s₂.Sorted (· ≤ ·)) :
    List.Forall₂ (· ≤ ·) (s₁.orderedInsert (· ≤ ·) x) (s₂.orderedInsert (· ≤ ·) y) := by
  induction h with
  | nil => simpa using hxy
  | @cons a b l₁ l₂ hab h ih =>
    by_cases hxa : x ≤ a <;> by_cases hyb : y ≤ b
    · rw [List.orderedInsert, if_pos hxa, List.orderedInsert, if_pos hyb]
      exact .cons hxy (.cons hab h)
    · rw [List.orderedInsert, if_pos hxa, List.orderedInsert, if_neg hyb]
      refine .cons (hxa.trans hab) ?_
      exact forall₂_le_trans (.cons hab h)
        (cons_forall₂_orderedInsert b y l₂ (le_of_not_le hyb)
          (List.rel_of_sorted_cons hs₂) hs₂.of_cons)
    · rw [List.orderedInsert, if_neg hxa, List.orderedInsert, if_pos hyb]
      refine .cons ((le_of_not_le hxa).trans hxy) ?_
      exact orderedInsert_forall₂_cons x b h (hxy.trans hyb)
        (List.rel_of_sorted_cons hs₂) hs₂.of_cons
    · rw [List.orderedInsert, if_neg hxa, List.orderedInsert, if_neg hyb]
      exact .cons hab (ih hs₁.of_cons hs₂.of_cons)

/-- Sorting is monotone for the pointwise order: pointwise-smaller data has
pointwise-smaller order statistics. -/
lemma sortQ_forall₂ {l₁ l₂ : List ℚ} (h : List.Forall₂ (· ≤ ·) l₁ l₂) :
    List.Forall₂ (· ≤ ·) (sortQ l₁) (sortQ l₂) := by
  induction h with
  | nil => exact .nil
  | @cons a b t₁ t₂ hab h ih =>
    simpa [sortQ, List.insertionSort] using
      orderedInsert_forall₂ a b ih hab
        (List.sorted_insertionSort _ t₁) (List.sorted_insertionSort _ t₂)

lemma forall₂_le_getD {l₁ l₂ : List ℚ} (h : List.Forall₂ (· ≤ ·) l₁ l₂) (i : ℕ) :
    l₁.getD i 0 ≤ l₂.getD i 0 := by
  induction h generalizing i with
  | nil => simp
  | cons hab h ih => cases i with
    | zero => simpa using hab
    | succ j => simpa using ih j

/-- The median is monotone for the pointwise order. -/
lemma medianQ_mono {l₁ l₂ : List ℚ} (h : List.Forall₂ (· ≤ ·) l₁ l₂) :
    medianQ l₁ ≤ medianQ l₂ := by
  have hs := sortQ_forall₂ h
  have hlen : l₁.length = l₂.length := h.length_eq
  rw [medianQ, medianQ, ← hlen]
  split
  · exact forall₂_le_getD hs _
  · have h1 := forall₂_le_getD hs (l₁.length / 2 - 1)
    have h2 := forall₂_le_getD hs (l₁.length / 2)
    linarith

lemma foldl_min_mem (l : List ℚ) (a : ℚ) : l.foldl min a ∈ a :: l := by
  induction l generalizing a with
  | nil => simp
  | cons b t ih =>
    simp only [List.foldl_cons]
    rcases min_choice a b with hc | hc <;> rw [hc]
    · have h := ih a
      rw [List.mem_cons] at h
      rcases h with h | h <;> simp [h]
    · have h := ih b
      rw [List.mem_cons] at h
      rcases h with h | h <;> simp [h]

lemma foldl_min_le (l : List ℚ) : ∀ (a : ℚ), ∀ x ∈ a :: l, l.foldl min a ≤ x := by
  induction l with
  | nil =>
    intro a x hx
    simp only [List.mem_cons, List.not_mem_nil, or_false] at hx
    simp [hx]
  | cons b t ih =>
    intro a x hx
    simp only [List.foldl_cons]
    rw [List.mem_cons, List.mem_cons] at hx
    rcases hx with rfl | rfl | hx
    · exact (ih (min x b) _ (by simp)).trans (min_le_left x b)
    · exact (ih (min a x) _ (by simp)).trans (min_le_right a x)
    · exact ih (min a b) x (by simp [hx])

lemma foldl_min_le_mem {l : List ℚ} {a x : ℚ} (hx : x ∈ a :: l) : l.foldl min a ≤ x :=
  foldl_min_le l a x hx

lemma foldl_min_forall₂ {l₁ l₂ : List ℚ} (h : List.Forall₂ (· ≤ ·) l₁ l₂)
    {a b : ℚ} (hab : a ≤ b) : l₁.foldl min a ≤ l₂.foldl min b := by
  induction h generalizing a b with
  | nil => simpa using hab
  | cons hcd h ih => exact ih (min_le_min hab hcd)

/-- The array minimum belongs to a nonempty array. -/
lemma aminQ_mem {l : List ℚ} (h : l ≠ []) : aminQ l ∈ l := by
  cases l with
  | nil => exact absurd rfl h
  | cons a t => simpa [aminQ] using foldl_min_mem t a

/-- The array minimum is a lower bound. -/
lemma aminQ_le {l : List ℚ} (x : ℚ) (hx : x ∈ l) : aminQ l ≤ x := by
  cases l with
  | nil => simp at hx
  | cons a t => simpa [aminQ] using foldl_min_le t a x hx


lemma aminQ_forall₂ {l₁ l₂ : List ℚ} (hne : l₁ ≠ [])
    (h : List.Forall₂ (· ≤ ·) l₁ l₂) : aminQ l₁ ≤ aminQ l₂ := by
  cases h with
  | nil => exact absurd rfl hne
  | cons hab h => simpa [aminQ] using foldl_min_forall₂ h hab

/-- Positivity of the median of a nonempty positive list. -/
lemma medianQ_pos {l : List ℚ} (hne : l ≠ []) (h : ∀ x ∈ l, 0 < x) :
    0 < medianQ l := by
  have hperm : ∀ x ∈ sortQ l, 0 < x := fun x hx =>
    h x ((List.perm_insertionSort _ l).mem_iff.1 hx)
  have hlen : (sortQ l).length = l.length := by
    simpa [sortQ] using List.length_insertionSort (r := (· ≤ ·)) l
  have hn : 0 < l.length := List.length_pos.2 hne
  have hget : ∀ i, i < l.length → 0 < (sortQ l).getD i 0 := by
    intro i hi
    rw [List.getD_eq_getElem _ _ (by omega : i < (sortQ l).length)]
    exact hperm _ (List.getElem_mem _)
  rw [medianQ]
  split
  · exact hget _ (by omega)
  · have h1 := hget (l.length / 2 - 1) (by omega)
    have h2 := hget (l.length / 2) (by omega)
    positivity

/-- The median of a nonempty list bounded by `1` is at most `1`. -/
lemma medianQ_le_one {l : List ℚ} (hne : l ≠ []) (h : ∀ x ∈ l, x ≤ 1) :
    medianQ l ≤ 1 := by
  have hperm : ∀ x ∈ sortQ l, x ≤ 1 := fun x hx =>
    h x ((List.perm_insertionSort _ l).mem_iff.1 hx)
  have hlen : (sortQ l).length = l.length := by
    simpa [sortQ] using List.length_insertionSort (r := (· ≤ ·)) l
  have hn : 0 < l.length := List.length_pos.2 hne
  have hget : ∀ i, i < l.length → (sortQ l).getD i 0 ≤ 1 := by
    intro i hi
    rw [List.getD_eq_getElem _ _ (by omega : i < (sortQ l).length)]
    exact hperm _ (List.getElem_mem _)
  rw [medianQ]
  split
  · exact hget _ (by omega)
  · have h1 := hget (l.length / 2 - 1) (by omega)
    have h2 := hget (l.length / 2) (by omega)
    linarith

/-- On an all-positive rate array the embedded precision selection takes the
closed form of the source expression. -/
lemma selectPrecision_ok (rr : List ℚ) (ma ms : ℚ)
    (hpos : ∀ x ∈ rr.tail, 0 < x)
    (hm : 0 < min 1 (min ma ms) * medianQ rr.tail) :
    selectPrecision rr ma ms none =
      .ok (max (ceilNegLog10 (aminQ rr.tail))
            (ceilNegLog10 (min 1 (min ma ms) * medianQ rr.tail)) + 3) := by
  rw [selectPrecision]
  rw [if_neg (by push_neg; intro x hx; exact le_of_lt (hpos x hx))]
  rw [if_neg (by push_neg; intro x hx; exact ne_of_gt (hpos x hx))]
  rw [if_neg (by push_neg; exact le_of_lt hm)]
  rw [if_neg (ne_of_gt hm)]

/-- Claim C1: with all non-sentinel rates positive, positive mutation
multipliers and no explicit precision override, the selected precision equals
`max(⌈-log₁₀(min rate)⌉, ⌈-log₁₀(min(1, ma, ms) · median)⌉) + 3`, the
logarithms read over the reals and the median taken over the rate array
without its index-0 sentinel. -/
theorem C1_precision_formula (rr : List ℚ) (ma ms : ℚ) (p : ℤ)
    (hpos : ∀ x ∈ rr.tail, 0 < x) (hma : 0 < ma) (hms : 0 < ms)
    (hne : rr.tail ≠ [])
    (hok : selectPrecision rr ma ms none = Except.ok p) :
    p = max ⌈-Real.logb 10 ((aminQ rr.tail : ℚ) : ℝ)⌉
          ⌈-Real.logb 10 ((min 1 (min ma ms) * medianQ rr.tail : ℚ) : ℝ)⌉ + 3 := by
  have hmed := medianQ_pos hne hpos
  have hmin1 : 0 < min 1 (min ma ms) := lt_min (by norm_num) (lt_min hma hms)
  have hm : 0 < min 1 (min ma ms) * medianQ rr.tail := mul_pos hmin1 hmed
  rw [selectPrecision_ok rr ma ms hpos hm] at hok
  have hamin : 0 < aminQ rr.tail := hpos _ (aminQ_mem hne)
  rw [ceil_neg_logb_eq_ceilNegLog10 _ hamin, ceil_neg_logb_eq_ceilNegLog10 _ hm]
  exact (Except.ok.inj hok).symm

lemma medianQ_single (a : ℚ) : medianQ [a] = a := by
  norm_num [medianQ, sortQ, List.insertionSort, List.orderedInsert]

theorem C1_precision_formula_witness :
    (∀ x ∈ ([0, 1/100] : List ℚ).tail, (0:ℚ) < x) ∧
    selectPrecision [0, 1/100] 1 1 none = Except.ok 5 ∧
    (5 : ℤ) = max ⌈-Real.logb 10 ((aminQ ([0, 1/100] : List ℚ).tail : ℚ) : ℝ)⌉
        ⌈-Real.logb 10 ((min 1 (min 1 1) * medianQ ([0, 1/100] : List ℚ).tail : ℚ) : ℝ)⌉
      + 3 := by
  have hok : selectPrecision [0, 1/100] 1 1 none = Except.ok 5 := by
    rw [selectPrecision_ok _ _ _ (by norm_num) (by norm_num [medianQ_single])]
    norm_num [aminQ, medianQ_single]
    rw [ceilNegLog10_eq (q := 1/100) (z := 2) (by norm_num) (by norm_num)]
    norm_num
  exact ⟨by norm_num, hok,
    C1_precision_formula [0, 1/100] 1 1 5 (by norm_num) (by norm_num) (by norm_num)
      (by norm_num) hok⟩

/-- Claim C2 (the code lacks the specified guard): on a zero non-sentinel
rate the embedded precision selection reproduces the source behaviour of
propagating `-inf` out of `np.log10` into the `int(...)` conversion, which
dies with a generic `OverflowError` (`ValueError` for the `NaN` of a negative
rate) instead of the clear, descriptive diagnostic the specification
requires. -/
theorem C2_zero_rate_unguarded :
    selectPrecision [0, 0] 1 1 none =
      Except.error "cannot convert float infinity to integer" ∧
    selectPrecision [0, -1, 1/2] 1 1 none =
      Except.error "cannot convert float NaN to integer" := by
  constructor <;> norm_num [selectPrecision]

/-- Claim C6 counterexample: the rate array `[0, 100]` has its only
non-sentinel entry positive and no override, yet the selected precision is
`1 < 3`, refuting the claimed lower bound for arbitrary positive rates. -/
theorem C6_counterexample :
    selectPrecision [0, 100] 1 1 none = Except.ok 1 ∧ ¬ (3 : ℤ) ≤ 1 := by
  refine ⟨?_, by norm_num⟩
  rw [selectPrecision_ok _ _ _ (by norm_num) (by norm_num [medianQ_single])]
  norm_num [aminQ, medianQ_single]
  rw [ceilNegLog10_eq (q := 100) (z := -2) (by norm_num) (by norm_num)]
  norm_num

lemma ceilNegLog10_nonneg {q : ℚ} (h0 : 0 < q) (h1 : q ≤ 1) : 0 ≤ ceilNegLog10 q := by
  rw [ceilNegLog10]
  have : Int.log 10 q ≤ Int.log 10 (1 : ℚ) := Int.log_mono_right h0 h1
  rw [Int.log_one_right] at this
  omega

lemma ceilNegLog10_mono {q₁ q₂ : ℚ} (h0 : 0 < q₁) (h : q₁ ≤ q₂) :
    ceilNegLog10 q₂ ≤ ceilNegLog10 q₁ := by
  rw [ceilNegLog10, ceilNegLog10]
  have hmono : Int.log 10 q₁ ≤ Int.log 10 q₂ := Int.log_mono_right h0 h
  omega

lemma medianQ_nil : medianQ [] = 0 := by norm_num [medianQ, sortQ]

/-- A successful overrideless precision selection forces a nonempty rate
tail. -/
lemma selectPrecision_ok_tail_ne {rr : List ℚ} {ma ms : ℚ} {p : ℤ}
    (hp : selectPrecision rr ma ms none = Except.ok p) : rr.tail ≠ [] := by
  intro h
  rw [selectPrecision] at hp
  rw [h] at hp
  norm_num [medianQ_nil] at hp
  exact Except.noConfusion hp

/-- Claim C6 (amended): for rate arrays whose non-sentinel entries are
positive, with positive multipliers and no override, shrinking the rates and
the multipliers towards zero (keeping them positive) never decreases the
selected precision; and whenever the starting non-sentinel rates are
moreover at most 1, the selected precision is at least 3. -/
theorem C6_lower_bound_and_monotone (rr rra : List ℚ) (ma ms maa msa : ℚ) (p pa : ℤ)
    (hpos : ∀ x ∈ rr.tail, 0 < x)
    (hposa : ∀ x ∈ rra.tail, 0 < x)
    (hma0 : 0 < maa) (hms0 : 0 < msa)
    (hF : List.Forall₂ (· ≤ ·) rra.tail rr.tail)
    (hmale : maa ≤ ma) (hmsle : msa ≤ ms)
    (hp : selectPrecision rr ma ms none = Except.ok p)
    (hpa : selectPrecision rra maa msa none = Except.ok pa) :
    ((∀ x ∈ rr.tail, x ≤ 1) → 3 ≤ p) ∧ p ≤ pa := by
  have hne : rr.tail ≠ [] := selectPrecision_ok_tail_ne hp
  have hnea : rra.tail ≠ [] := selectPrecision_ok_tail_ne hpa
  have hma : 0 < ma := lt_of_lt_of_le hma0 hmale
  have hms : 0 < ms := lt_of_lt_of_le hms0 hmsle
  have hmed := medianQ_pos hne hpos
  have hmeda := medianQ_pos hnea hposa
  have hmin1 : 0 < min 1 (min ma ms) := lt_min (by norm_num) (lt_min hma hms)
  have hmin1a : 0 < min 1 (min maa msa) := lt_min (by norm_num) (lt_min hma0 hms0)
  have hm : 0 < min 1 (min ma ms) * medianQ rr.tail := mul_pos hmin1 hmed
  have hma' : 0 < min 1 (min maa msa) * medianQ rra.tail := mul_pos hmin1a hmeda
  rw [selectPrecision_ok rr ma ms hpos hm] at hp
  rw [selectPrecision_ok rra maa msa hposa hma'] at hpa
  have hpeq := (Except.ok.inj hp).symm
  have hpaeq := (Except.ok.inj hpa).symm
  have hamin : 0 < aminQ rr.tail := hpos _ (aminQ_mem hne)
  have hamina : 0 < aminQ rra.tail := hposa _ (aminQ_mem hnea)
  constructor
  · intro hle1
    have h1 : aminQ rr.tail ≤ 1 := hle1 _ (aminQ_mem hne)
    have := ceilNegLog10_nonneg hamin h1
    have hmax : (0:ℤ) ≤ max (ceilNegLog10 (aminQ rr.tail))
        (ceilNegLog10 (min 1 (min ma ms) * medianQ rr.tail)) :=
      le_trans this (le_max_left _ _)
    omega
  · have hminle : aminQ rra.tail ≤ aminQ rr.tail := aminQ_forall₂ hnea hF
    have ha : ceilNegLog10 (aminQ rr.tail) ≤ ceilNegLog10 (aminQ rra.tail) :=
      ceilNegLog10_mono hamina hminle
    have hmedle : medianQ rra.tail ≤ medianQ rr.tail := medianQ_mono hF
    have hmle : min 1 (min maa msa) * medianQ rra.tail ≤
        min 1 (min ma ms) * medianQ rr.tail := by
      have h1 : min 1 (min maa msa) ≤ min 1 (min ma ms) :=
        min_le_min (le_refl 1) (min_le_min hmale hmsle)
      exact mul_le_mul h1 hmedle (le_of_lt hmeda) (le_of_lt hmin1)
    have hb : ceilNegLog10 (min 1 (min ma ms) * medianQ rr.tail) ≤
        ceilNegLog10 (min 1 (min maa msa) * medianQ rra.tail) :=
      ceilNegLog10_mono hma' hmle
    omega

theorem C6_lower_bound_and_monotone_witness :
    selectPrecision [0, 1/2] 1 1 none = Except.ok 4 ∧
    selectPrecision [0, 1/20] (1/2) 1 none = Except.ok 5 ∧
    ((3:ℤ) ≤ 4 ∧ (4:ℤ) ≤ 5) := by
  have h1 : selectPrecision [0, 1/2] 1 1 none = Except.ok 4 := by
    rw [selectPrecision_ok _ _ _ (by norm_num) (by norm_num [medianQ_single])]
    norm_num [aminQ, medianQ_single]
    rw [ceilNegLog10_eq (q := 1/2) (z := 1) (by norm_num) (by norm_num)]
    norm_num
  have h2 : selectPrecision [0, 1/20] (1/2) 1 none = Except.ok 5 := by
    rw [selectPrecision_ok _ _ _ (by norm_num) (by norm_num [medianQ_single])]
    norm_num [aminQ, medianQ_single]
    rw [ceilNegLog10_eq (q := 1/20) (z := 2) (by norm_num) (by norm_num),
      ceilNegLog10_eq (q := 1/40) (z := 2) (by norm_num) (by norm_num)]
    norm_num
  refine ⟨h1, h2, ?_⟩
  have h := C6_lower_bound_and_monotone [0, 1/2] [0, 1/20] 1 1 (1/2) 1 4 5
    (by norm_num) (by norm_num) (by norm_num) (by norm_num) (by norm_num)
    (by norm_num) (by norm_num) h1 h2
  exact ⟨h.1 (by norm_num), h.2⟩

/-- Sum of a list mapped through a function that is constant on it. -/
lemma sum_map_const_of_all_eq {α : Type} (l : List α) (f : α → ℚ) (v : ℚ)
    (h : ∀ x ∈ l, f x = v) : (l.map f).sum = (l.length : ℚ) * v := by
  induction l with
  | nil => simp
  | cons a t ih =>
    simp only [List.map_cons, List.sum_cons, List.length_cons]
    rw [h a (by simp), ih (fun x hx => h x (by simp [hx]))]
    push_cast
    ring

/-- Claim C7: for a simplified genealogy consisting of a single local tree of
positive span in which every internal node has exactly two children (and at
least one node is internal), the aggregator computes mean 2 and variance 0. -/
theorem C7_binary_tree_stats (t : TreeData)
    (hspan : 0 < t.span)
    (hbin : ∀ c ∈ t.childCounts, c = 0 ∨ c = 2)
    (hint : ∃ c ∈ t.childCounts, 0 < c) :
    ncMean [t] = 2 ∧ ncVar [t] = 0 := by
  have hall : ∀ c ∈ internalCounts t, c = 2 := by
    intro c hc
    rw [internalCounts, List.mem_filter] at hc
    rcases hbin c hc.1 with h | h
    · rw [h] at hc
      simp at hc
    · exact h
  have hk : 0 < (internalCounts t).length := by
    obtain ⟨c, hc, hcpos⟩ := hint
    have hmem : c ∈ internalCounts t := by
      rw [internalCounts, List.mem_filter]
      exact ⟨hc, by simpa using hcpos⟩
    exact List.length_pos.2 (List.ne_nil_of_mem hmem)
  have hsum : ncSum [t] = ((internalCounts t).length : ℚ) * (2 * t.span) := by
    rw [ncSum]
    simp only [List.map_cons, List.map_nil, List.sum_cons, List.sum_nil, add_zero]
    exact sum_map_const_of_all_eq (internalCounts t) (fun c => (c : ℚ) * t.span)
      (2 * t.span) (fun c hc => by rw [hall c hc]; norm_num)
  have hsumsq : ncSumSq [t] = ((internalCounts t).length : ℚ) * (4 * t.span) := by
    rw [ncSumSq]
    simp only [List.map_cons, List.map_nil, List.sum_cons, List.sum_nil, add_zero]
    exact sum_map_const_of_all_eq (internalCounts t) (fun c => (c : ℚ)^2 * t.span)
      (4 * t.span) (fun c hc => by rw [hall c hc]; norm_num)
  have htot : ncTot [t] = ((internalCounts t).length : ℚ) * t.span := by
    rw [ncTot]
    simp only [List.map_cons, List.map_nil, List.sum_cons, List.sum_nil, add_zero]
    exact sum_map_const_of_all_eq (internalCounts t) (fun _ => t.span)
      t.span (fun c _ => rfl)
  have hkq : (0:ℚ) < ((internalCounts t).length : ℚ) := by exact_mod_cast hk
  have hden : ((internalCounts t).length : ℚ) * t.span ≠ 0 := by positivity
  have hmean : ncMean [t] = 2 := by
    rw [ncMean, hsum, htot, div_eq_iff hden]
    ring
  refine ⟨hmean, ?_⟩
  rw [ncVar, hsumsq, htot, hmean, sub_eq_zero, div_eq_iff hden]
  ring

theorem C7_binary_tree_stats_witness :
    ncMean [⟨10, [2, 0, 0]⟩] = 2 ∧ ncVar [⟨10, [2, 0, 0]⟩] = 0 :=
  C7_binary_tree_stats ⟨10, [2, 0, 0]⟩ (by norm_num) (by decide)
    ⟨2, by simp, by norm_num⟩

lemma diffL_cons_cons (a b : ℚ) (l : List ℚ) :
    diffL (a :: b :: l) = (b - a) :: diffL (b :: l) := by
  simp [diffL]

/-- First differences of a monotone list are nonnegative. -/
lemma diffL_nonneg {l : List ℚ} (h : List.Chain' (· ≤ ·) l) :
    ∀ v ∈ diffL l, 0 ≤ v := by
  induction l with
  | nil => simp [diffL]
  | cons a l ih =>
    cases l with
    | nil => simp [diffL]
    | cons b t =>
      intro v hv
      rw [diffL_cons_cons, List.mem_cons] at hv
      rcases hv with rfl | hv
      · have hab : a ≤ b := List.Chain'.rel_head h
        linarith
      · exact ih h.tail v hv

/-- First differences of a list bounded in `[0, L]` are at most `L`. -/
lemma diffL_le {l : List ℚ} {L : ℚ} (hbnd : ∀ x ∈ l, 0 ≤ x ∧ x ≤ L) :
    ∀ v ∈ diffL l, v ≤ L := by
  induction l with
  | nil => simp [diffL]
  | cons a l ih =>
    cases l with
    | nil => simp [diffL]
    | cons b t =>
      intro v hv
      rw [diffL_cons_cons, List.mem_cons] at hv
      rcases hv with rfl | hv
      · have h1 := hbnd a (by simp)
        have h2 := hbnd b (by simp)
        linarith [h1.1, h2.2]
      · exact ih (fun x hx => hbnd x (by simp [hx])) v hv

lemma diffL_length (l : List ℚ) : (diffL l).length = l.length - 1 := by
  cases l with
  | nil => simp [diffL]
  | cons a t => simp [diffL]

/-- With positions and mask of equal length, the number of eligible positions
is the number of `true` entries of the mask. -/
lemma inferencePositions_length {pos : List ℚ} {mask : List Bool}
    (h : pos.length = mask.length) :
    (((pos.zip mask).filter (fun p => p.2)).map (fun p => p.1)).length =
      mask.count true := by
  induction pos generalizing mask with
  | nil =>
    cases mask with
    | nil => simp
    | cons b m => simp at h
  | cons a t ih =>
    cases mask with
    | nil => simp at h
    | cons b m =>
      simp only [List.length_cons, Nat.succ.injEq] at h
      have hz : (a :: t).zip (b :: m) = (a, b) :: t.zip m := rfl
      rw [hz, List.filter_cons]
      cases b
      · simpa [List.count_cons] using ih h
      · simpa [List.count_cons] using ih h

/-- Claim C5 (amended): for a chromosome-token-free `.samples` filename, the
RateArray is the `0.0` sentinel followed by the first differences of the
eligible physical positions normalised by sequence length; for monotone,
in-bounds positions every entry lies in `[0, 1]`, and provided at least one
site is eligible the length equals the number of eligible sites. -/
theorem C5_no_chr_rate_array (svc : MapService) (filename : String) (sd : SampleData)
    (hchr : hasChr filename.toList = false)
    (hsfx : endsWithStr ".samples" filename = true)
    (hlen : sd.sites_position.length = sd.sites_inference.length)
    (hmono : List.Chain' (· ≤ ·) (inferencePositions sd))
    (hbnd : ∀ x ∈ inferencePositions sd, 0 ≤ x ∧ x ≤ sd.sequence_length)
    (hL : 0 < sd.sequence_length)
    (hne : inferencePositions sd ≠ []) :
    setup_sample_file svc filename sd =
      .ok (sd, 0 :: (diffL (inferencePositions sd)).map (· / sd.sequence_length),
           dropRightStr 8 filename) ∧
    (∀ v ∈ (0 :: (diffL (inferencePositions sd)).map (· / sd.sequence_length) : List ℚ),
      0 ≤ v ∧ v ≤ 1) ∧
    (0 :: (diffL (inferencePositions sd)).map (· / sd.sequence_length) : List ℚ).length =
      sd.sites_inference.count true := by
  refine ⟨?_, ?_, ?_⟩
  · rw [setup_sample_file, if_neg (by simp [hsfx]), setupRho,
      if_neg (by simp only [Bool.not_eq_true]; exact hchr)]
  · intro v hv
    rw [List.mem_cons] at hv
    rcases hv with rfl | hv
    · norm_num
    · obtain ⟨d, hd, rfl⟩ := List.mem_map.1 hv
      have h0 := diffL_nonneg hmono d hd
      have h1 := diffL_le hbnd d hd
      constructor
      · positivity
      · rw [div_le_one hL]
        exact h1
  · rw [List.length_cons, List.length_map, diffL_length]
    rw [← inferencePositions_length hlen]
    have hpos : 0 < (inferencePositions sd).length := List.length_pos.2 hne
    rw [inferencePositions] at hpos ⊢
    omega

/-- Claim C5 counterexample: with zero inference-eligible sites the produced
RateArray still contains the sentinel, so its length is 1, not 0. -/
def trivialMapService : MapService := ⟨fun _ => ⟨[], []⟩⟩

def sdNoEligible : SampleData :=
  { sites_position := [5], sites_inference := [false], sequence_length := 10,
    path := none }

theorem C5_counterexample :
    (setupRho trivialMapService "data.samples" sdNoEligible).length = 1 ∧
    sdNoEligible.sites_inference.count true = 0 := by
  constructor
  · rw [setupRho, if_neg (by decide)]
    simp [inferencePositions, sdNoEligible, diffL]
  · decide

def sdScenario : SampleData :=
  { sites_position := [0, 100, 500, 2000, 9999],
    sites_inference := [true, true, true, true, true],
    sequence_length := 10000, path := none }

theorem C5_no_chr_rate_array_witness :
    setup_sample_file trivialMapService "sim.samples" sdScenario =
      .ok (sdScenario,
        0 :: (diffL (inferencePositions sdScenario)).map (· / sdScenario.sequence_length),
        dropRightStr 8 "sim.samples") ∧
    (∀ v ∈ (0 :: (diffL (inferencePositions sdScenario)).map
        (· / sdScenario.sequence_length) : List ℚ), 0 ≤ v ∧ v ≤ 1) ∧
    (0 :: (diffL (inferencePositions sdScenario)).map
        (· / sdScenario.sequence_length) : List ℚ).length =
      sdScenario.sites_inference.count true :=
  C5_no_chr_rate_array trivialMapService "sim.samples" sdScenario
    (by decide) (by decide) (by decide)
    (by norm_num [inferencePositions, sdScenario])
    (by norm_num [inferencePositions, sdScenario])
    (by norm_num [sdScenario])
    (by simp [inferencePositions, sdScenario])

lemma chain'_lt_all {a : ℚ} {l : List ℚ} (h : List.Chain' (· < ·) (a :: l)) :
    ∀ p ∈ l, a < p := by
  rw [List.chain'_iff_pairwise] at h
  exact fun p hp => List.rel_of_pairwise_cons h hp

/-- A query at or below every breakpoint accumulates no genetic distance. -/
lemma specGenPos_eq_zero (x : ℚ) : (xs rr : List ℚ) → (∀ p ∈ xs, x ≤ p) →
    specGenPos x xs rr = 0
  | [], _, _ => by simp [specGenPos]
  | [_], _, _ => by simp [specGenPos]
  | _ :: _ :: _, [], _ => by simp [specGenPos]
  | p0 :: p1 :: ps, r :: rr, h => by
    rw [specGenPos]
    rw [min_eq_left (h p1 (by simp)), min_eq_left (h p0 (by simp))]
    rw [specGenPos_eq_zero x (p1 :: ps) rr (fun p hp => h p (by simp [hp]))]
    ring_nf

/-- Interpolation commutes with a constant shift of the ordinates. -/
lemma interp_shift (x c : ℚ) : (xs fp : List ℚ) → xs.length = fp.length → xs ≠ [] →
    interp x xs (fp.map (c + ·)) = c + interp x xs fp
  | [], _, _, hne => absurd rfl hne
  | [x0], [f0], _, _ => by simp [interp]
  | [x0], [], hlen, _ => by simp at hlen
  | [x0], _ :: _ :: _, hlen, _ => by simp at hlen
  | _ :: _ :: _, [], hlen, _ => by simp at hlen
  | _ :: _ :: _, [_], hlen, _ => by simp at hlen
  | x0 :: x1 :: xs, f0 :: f1 :: fs, hlen, _ => by
    simp only [List.map_cons]
    rw [interp, interp]
    split
    · rfl
    · split
      · ring
      · exact interp_shift x c (x1 :: xs) (f1 :: fs) (by simpa using hlen) (by simp)

lemma cumsum_length : (l : List ℚ) → (cumsum l).length = l.length
  | [] => by simp [cumsum]
  | a :: t => by simp [cumsum, cumsum_length t]

/-- The `np.interp` over the cumulative-sum ordinates computes exactly the
spec's piecewise-linear cumulative genetic position, for strictly increasing
breakpoints. -/
lemma interp_cumsum_spec (x : ℚ) : (xs rr : List ℚ) → xs.length = rr.length + 1 →
    List.Chain' (· < ·) xs →
    interp x xs (0 :: cumsum (List.zipWith (fun d r => d * r) (diffL xs) rr)) =
      specGenPos x xs rr
  | [], _, hlen, _ => by simp at hlen
  | [x0], [], _, _ => by simp [interp, diffL, cumsum, specGenPos]
  | [x0], _ :: _, hlen, _ => by simp at hlen
  | x0 :: x1 :: xs, [], hlen, _ => by simp at hlen
  | x0 :: x1 :: xs, r :: rr, hlen, hmono => by
    have hx01 : x0 < x1 := List.Chain'.rel_head hmono
    have hlen' : (x1 :: xs).length = rr.length + 1 := by simpa using hlen
    have hcl : (cumsum (List.zipWith (fun d r => d * r) (diffL (x1 :: xs)) rr)).length
        = xs.length := by
      rw [cumsum_length, List.length_zipWith, diffL_length]
      simp at hlen'
      simp [hlen']
    rw [diffL_cons_cons, List.zipWith_cons_cons, cumsum, specGenPos]
    rw [interp]
    split
    · rename_i hx0
      rw [min_eq_left (le_of_lt (lt_of_le_of_lt hx0 hx01)), min_eq_left hx0]
      rw [specGenPos_eq_zero x (x1 :: xs) rr ?hall]
      · ring
      case hall =>
        intro p hp
        rw [List.mem_cons] at hp
        rcases hp with rfl | hp
        · exact le_of_lt (lt_of_le_of_lt hx0 hx01)
        · exact le_of_lt (lt_of_le_of_lt hx0 (lt_trans hx01 (chain'_lt_all hmono.tail p hp)))
    · split
      · rename_i hx0 hx1
        rw [min_eq_left hx1, min_eq_right (le_of_lt (lt_of_not_le hx0))]
        rw [specGenPos_eq_zero x (x1 :: xs) rr ?hall2]
        · have hne : x1 - x0 ≠ 0 := by linarith
          field_simp
          ring
        case hall2 =>
          intro p hp
          rw [List.mem_cons] at hp
          rcases hp with rfl | hp
          · exact hx1
          · exact le_of_lt (lt_of_le_of_lt hx1 (chain'_lt_all hmono.tail p hp))
      · rename_i hx0 hx1
        have hx1' : x1 < x := lt_of_not_le hx1
        rw [min_eq_right (le_of_lt hx1'), min_eq_right (le_of_lt (lt_trans hx01 hx1'))]
        have hshift : interp x (x1 :: xs)
            (((x1 - x0) * r) ::
              (cumsum (List.zipWith (fun d r => d * r) (diffL (x1 :: xs)) rr)).map
                ((x1 - x0) * r + ·)) =
            (x1 - x0) * r + interp x (x1 :: xs)
              (0 :: cumsum (List.zipWith (fun d r => d * r) (diffL (x1 :: xs)) rr)) := by
          have hmc : (((x1 - x0) * r) ::
              (cumsum (List.zipWith (fun d r => d * r) (diffL (x1 :: xs)) rr)).map
                ((x1 - x0) * r + ·)) =
              ((0 :: cumsum (List.zipWith (fun d r => d * r) (diffL (x1 :: xs)) rr)).map
                ((x1 - x0) * r + ·)) := by
            simp
          rw [hmc]
          exact interp_shift x ((x1 - x0) * r) (x1 :: xs) _
            (by simp [hcl]) (by simp)
        rw [hshift, interp_cumsum_spec x (x1 :: xs) rr hlen' hmono.tail]
        ring

/-- Claim C8: over a strictly increasing breakpoint map the converted
genetic position of every query is the spec's cumulative-sum-with-linear-
interpolation value, and in the chromosome branch the RateArray is the first
differences of the converted positions of the eligible sites with the `0.0`
sentinel prepended. -/
theorem C8_genetic_positions (rm : RecombinationMap) (qs : List ℚ)
    (hmono : List.Chain' (· < ·) rm.positions)
    (hlen : rm.rates.length = rm.positions.length)
    (hne : rm.positions ≠ []) :
    physical_to_genetic rm qs =
      qs.map (fun x => specGenPos x rm.positions rm.rates.dropLast) ∧
    ∀ (svc : MapService) (filename : String) (sd : SampleData),
      hasChr filename.toList = true → endsWithStr ".samples" filename = true →
      setup_sample_file svc filename sd =
        .ok (sd,
          0 :: diffL (physical_to_genetic
            (svc.getChromosomeMap (chrToken filename.toList)) (inferencePositions sd)),
          dropRightStr 8 filename) := by
  constructor
  · rw [physical_to_genetic]
    apply List.map_congr_left
    intro x _
    apply interp_cumsum_spec x rm.positions rm.rates.dropLast ?_ hmono
    rw [List.length_dropLast, hlen]
    have : 0 < rm.positions.length := List.length_pos.2 hne
    omega
  · intro svc filename sd hchr hsfx
    rw [setup_sample_file, if_neg (by simp [hsfx]), setupRho, if_pos hchr]

def rmW : RecombinationMap := ⟨[0, 10, 30], [1, 2, 0]⟩

theorem C8_genetic_positions_witness :
    physical_to_genetic rmW [5, 20] =
      [5, 20].map (fun x => specGenPos x rmW.positions rmW.rates.dropLast) :=
  (C8_genetic_positions rmW [5, 20]
    (by norm_num [rmW, List.chain'_cons]) (by decide) (by decide)).1

def Event.isMaCall : Event → Bool
  | .maCall .. => true
  | _ => false

def Event.isMsCall : Event → Bool
  | .msCall .. => true
  | _ => false

def Event.isFailRet : Event → Bool
  | .gaRet b => !b
  | .maRet b => !b
  | .msRet b => !b
  | _ => false

/-- The staged-pipeline ordering contract on an engine-event trace: every
ancestor-matching call is preceded by a successful return of the ancestor
builder, every sample-matching call is preceded by a successful return of
ancestor matching, and a failed return of any stage is the last event of the
trace (the run aborts before any later stage). -/
def StageOrdered (tr : List Event) : Prop :=
  (∀ (i : ℕ) (e : Event), tr[i]? = some e → e.isMaCall = true →
    ∃ j, j < i ∧ tr[j]? = some (Event.gaRet true)) ∧
  (∀ (i : ℕ) (e : Event), tr[i]? = some e → e.isMsCall = true →
    ∃ j, j < i ∧ tr[j]? = some (Event.maRet true)) ∧
  (∀ (i : ℕ) (e : Event), tr[i]? = some e → e.isFailRet = true → i + 1 = tr.length)

lemma getElem?_bound {α : Type} {l : List α} {i : ℕ} {e : α} (h : l[i]? = some e) :
    i < l.length := by
  by_contra hc
  rw [List.getElem?_eq_none (by omega)] at h
  exact Option.noConfusion h

lemma stageOrdered_nil : StageOrdered [] := by
  refine ⟨?_, ?_, ?_⟩ <;> intro i e h _ <;> simp at h

lemma stageOrdered_gaFail (a : ℕ) (b : Option String) :
    StageOrdered [Event.gaCall a b, Event.gaRet false] := by
  refine ⟨?_, ?_, ?_⟩ <;> intro i e h hf <;>
    have hi := getElem?_bound h <;>
    simp only [List.length_cons, List.length_nil] at hi <;>
    interval_cases i <;>
    simp only [List.getElem?_cons_zero, List.getElem?_cons_succ,
      Option.some.injEq] at h <;>
    subst h <;>
    simp_all [Event.isMaCall, Event.isMsCall, Event.isFailRet]

lemma stageOrdered_maFail (a : ℕ) (b : Option String) (r : List ℚ) (m : ℚ) (pr : ℤ)
    (t : ℕ) :
    StageOrdered [Event.gaCall a b, Event.gaRet true, Event.maCall r m pr t,
      Event.maRet false] := by
  refine ⟨?_, ?_, ?_⟩ <;> intro i e h hf <;>
    have hi := getElem?_bound h <;>
    simp only [List.length_cons, List.length_nil] at hi <;>
    interval_cases i <;>
    simp only [List.getElem?_cons_zero, List.getElem?_cons_succ,
      Option.some.injEq] at h <;>
    subst h <;>
    simp_all [Event.isMaCall, Event.isMsCall, Event.isFailRet]
  exact ⟨1, by omega, rfl⟩

lemma stageOrdered_msFail (a : ℕ) (b : Option String) (r : List ℚ) (m : ℚ) (pr : ℤ)
    (t : ℕ) (m2 : ℚ) :
    StageOrdered [Event.gaCall a b, Event.gaRet true, Event.maCall r m pr t,
      Event.maRet true, Event.msCall r m2 pr t, Event.msRet false] := by
  refine ⟨?_, ?_, ?_⟩ <;> intro i e h hf <;>
    have hi := getElem?_bound h <;>
    simp only [List.length_cons, List.length_nil] at hi <;>
    interval_cases i <;>
    simp only [List.getElem?_cons_zero, List.getElem?_cons_succ,
      Option.some.injEq] at h <;>
    subst h <;>
    simp_all [Event.isMaCall, Event.isMsCall, Event.isFailRet]
  · exact ⟨1, by omega, rfl⟩
  · exact ⟨3, by omega, rfl⟩

lemma stageOrdered_allOk (a : ℕ) (b : Option String) (r : List ℚ) (m : ℚ) (pr : ℤ)
    (t : ℕ) (m2 : ℚ) :
    StageOrdered [Event.gaCall a b, Event.gaRet true, Event.maCall r m pr t,
      Event.maRet true, Event.msCall r m2 pr t, Event.msRet true] := by
  refine ⟨?_, ?_, ?_⟩ <;> intro i e h hf <;>
    have hi := getElem?_bound h <;>
    simp only [List.length_cons, List.length_nil] at hi <;>
    interval_cases i <;>
    simp only [List.getElem?_cons_zero, List.getElem?_cons_succ,
      Option.some.injEq] at h <;>
    subst h <;>
    simp_all [Event.isMaCall, Event.isMsCall, Event.isFailRet]
  · exact ⟨1, by omega, rfl⟩
  · exact ⟨3, by omega, rfl⟩

/-- Every trace of `run` has one of the five sequential shapes: aborted
before the engine, failed at a stage (trace ends at that failed return), or
all three stages completed. -/
lemma run_trace_cases (env : Env) (eng : Engine) (p : Params) :
    (run env eng p).1 = [] ∨
    (∃ a b, (run env eng p).1 = [.gaCall a b, .gaRet false]) ∨
    (∃ a b r m pr t, (run env eng p).1 =
      [.gaCall a b, .gaRet true, .maCall r m pr t, .maRet false]) ∨
    (∃ a b r m pr t m2, (run env eng p).1 =
      [.gaCall a b, .gaRet true, .maCall r m pr t, .maRet true,
       .msCall r m2 pr t, .msRet false]) ∨
    (∃ a b r m pr t m2, (run env eng p).1 =
      [.gaCall a b, .gaRet true, .maCall r m pr t, .maRet true,
       .msCall r m2 pr t, .msRet true]) := by
  rw [run]
  split
  · simp
  · split
    · simp
    · split
      · simp
      · split
        · simp
        · split
          · right; left; exact ⟨_, _, rfl⟩
          · split
            · right; right; left; exact ⟨_, _, _, _, _, _, rfl⟩
            · split
              · right; right; right; left; exact ⟨_, _, _, _, _, _, _, rfl⟩
              · dsimp only
                split
                · right; right; right; right; exact ⟨_, _, _, _, _, _, _, rfl⟩
                · right; right; right; right; exact ⟨_, _, _, _, _, _, _, rfl⟩

/-- Claim C3: every pipeline run, whatever the engine and environment do,
produces a stage-ordered trace: ancestor matching is never invoked before the
ancestor builder returned successfully, sample matching never before ancestor
matching returned successfully, and a stage failure ends the trace. -/
theorem C3_stage_ordering (env : Env) (eng : Engine) (p : Params) :
    StageOrdered (run env eng p).1 := by
  rcases run_trace_cases env eng p with h | ⟨a, b, h⟩ | ⟨a, b, r, m, pr, t, h⟩ |
    ⟨a, b, r, m, pr, t, m2, h⟩ | ⟨a, b, r, m, pr, t, m2, h⟩ <;> rw [h]
  · exact stageOrdered_nil
  · exact stageOrdered_gaFail a b
  · exact stageOrdered_maFail a b r m pr t
  · exact stageOrdered_msFail a b r m pr t m2
  · exact stageOrdered_allOk a b r m pr t m2

/-- Claim C4: any ancestor-matching invocation of a run receives the full
RateArray, effective mutation rate `median(non-sentinel rates) × ma_mut_rate`,
the selected precision and the configured thread count; a sample-matching
invocation is identical except that its mutation rate uses `ms_mut_rate`. -/
theorem C4_matching_arguments (env : Env) (eng : Engine) (p : Params)
    (r : List ℚ) (m : ℚ) (pr : ℤ) (t : ℕ) :
    (Event.maCall r m pr t ∈ (run env eng p).1 →
      r = p.rec_rate ∧ m = medianQ p.rec_rate.tail * p.ma_mut_rate ∧
      selectPrecision p.rec_rate p.ma_mut_rate p.ms_mut_rate p.precision =
        Except.ok pr ∧
      t = p.num_threads) ∧
    (Event.msCall r m pr t ∈ (run env eng p).1 →
      r = p.rec_rate ∧ m = medianQ p.rec_rate.tail * p.ms_mut_rate ∧
      selectPrecision p.rec_rate p.ma_mut_rate p.ms_mut_rate p.precision =
        Except.ok pr ∧
      t = p.num_threads) := by
  rw [run]
  split
  · simp
  · split
    · simp
    · rename_i prec heq
      split
      · simp
      · split
        · simp
        · split
          · constructor <;> intro hm <;> simp [Event.maCall.injEq] at hm
          · split
            · constructor <;> intro hm <;> simp [List.mem_cons] at hm <;>
                rcases hm with ⟨h1, h2, h3, h4⟩
              exact ⟨h1, h2, by rw [h3]; exact heq, h4⟩
            · split
              · constructor <;> intro hm <;> simp [List.mem_cons] at hm <;>
                  rcases hm with ⟨h1, h2, h3, h4⟩
                · exact ⟨h1, h2, by rw [h3]; exact heq, h4⟩
                · exact ⟨h1, h2, by rw [h3]; exact heq, h4⟩
              · dsimp only
                split <;>
                · constructor <;> intro hm <;> simp [List.mem_cons] at hm <;>
                    rcases hm with ⟨h1, h2, h3, h4⟩
                  · exact ⟨h1, h2, by rw [h3]; exact heq, h4⟩
                  · exact ⟨h1, h2, by rw [h3]; exact heq, h4⟩

def tsApex : TreeSeq :=
  { trees := [⟨10, [2, 0, 0]⟩], num_edges := 3, num_mutations := 1, num_trees := 1 }

def sdApex : SampleData :=
  { sites_position := [0, 100, 500], sites_inference := [true, true, true],
    sequence_length := 1000, path := some "data.samples" }

def engApex : Engine :=
  { gaResult := .ok (), maResult := .ok tsApex, msResult := .ok tsApex }

def envApex : Env :=
  { simplify := fun t => t, kcDistance := fun _ _ => 0, loadTrees := fun _ => none,
    getsize := fun _ => 0, processTime := 0 }

def paramsApex : Params :=
  { sample_data := sdApex, rec_rate := [0, 1, 1], ma_mut_rate := 1, ms_mut_rate := 1,
    precision := some 5, num_threads := 0 }

def traceApex : List Event :=
  [.gaCall 0 (some "data_ma1_ms1_p5.ancestors"), .gaRet true,
   .maCall [0, 1, 1] 1 5 0, .maRet true, .msCall [0, 1, 1] 1 5 0, .msRet true]

def resApex : Results :=
  { ma_mut := 1, ms_mut := 1, precision := 5, edges := 3, muts := 1, num_trees := 1,
    kc := none, mean_node_children := 2, var_node_children := 0,
    process_time := 0, ts_size := 0, ts_path := "data_ma1_ms1_p5.trees" }

lemma runApex_eval : run envApex engApex paramsApex = (traceApex, Except.ok resApex) := by
  norm_num [run, paramsApex, sdApex, engApex, envApex, tsApex, selectPrecision]
  rw [if_neg (by decide), if_neg (by decide),
    if_neg (by norm_num [ncTot, internalCounts])]
  norm_num [medianQ, sortQ, List.insertionSort, List.orderedInsert, traceApex, resApex,
    ncMean, ncVar, ncSum, ncSumSq, ncTot, internalCounts]
  constructor <;> decide

theorem C3_stage_ordering_witness :
    ∃ j, j < 2 ∧ ((run envApex engApex paramsApex).1)[j]? = some (Event.gaRet true) :=
  (C3_stage_ordering envApex engApex paramsApex).1 2 (Event.maCall [0, 1, 1] 1 5 0)
    (by rw [show (run envApex engApex paramsApex).1 = traceApex from
        congrArg Prod.fst runApex_eval]; rfl) rfl

theorem C4_matching_arguments_witness :
    ([0, 1, 1] : List ℚ) = paramsApex.rec_rate ∧
    (1 : ℚ) = medianQ paramsApex.rec_rate.tail * paramsApex.ma_mut_rate ∧
    selectPrecision paramsApex.rec_rate paramsApex.ma_mut_rate paramsApex.ms_mut_rate
      paramsApex.precision = Except.ok 5 ∧
    0 = paramsApex.num_threads :=
  (C4_matching_arguments envApex engApex paramsApex [0, 1, 1] 1 5 0).1
    (by rw [show (run envApex engApex paramsApex).1 = traceApex from
        congrArg Prod.fst runApex_eval]; decide)

/-- Claim C9: in a successful run, if no ground-truth genealogy exists at the
base name (parameter suffix stripped) plus `.trees`, the KC field of the
result is `none` and the run still succeeds; if it exists, the KC field is
the KC distance between the simplified inferred genealogy and that ground
truth. -/
theorem C9_ground_truth_handling (env : Env) (eng : Engine) (p : Params)
    (pth : String) (res : Results)
    (hpath : p.sample_data.path = some pth)
    (hrun : (run env eng p).2 = Except.ok res) :
    (env.loadTrees (dropRightStr 8 pth ++ ".trees") = none → res.kc = none) ∧
    (∀ gt, env.loadTrees (dropRightStr 8 pth ++ ".trees") = some gt →
      ∃ ts, eng.msResult = Except.ok ts ∧
        res.kc = some (env.kcDistance (env.simplify ts) gt)) := by
  rw [run] at hrun
  split at hrun
  · simp at hrun
  · split at hrun
    · simp at hrun
    · split at hrun
      · simp at hrun
      · rename_i pth' heqp
        rw [hpath] at heqp
        have hp' : pth = pth' := Option.some.inj heqp
        subst hp'
        split at hrun
        · simp at hrun
        · split at hrun
          · simp at hrun
          · split at hrun
            · simp at hrun
            · split at hrun
              · simp at hrun
              · rename_i ts hts
                dsimp only at hrun
                split at hrun
                · simp at hrun
                · split at hrun
                  · rename_i hload
                    simp only [Except.ok.injEq] at hrun
                    subst hrun
                    constructor
                    · intro _; rfl
                    · intro gt hgt
                      rw [hload] at hgt
                      exact Option.noConfusion hgt
                  · rename_i gt hload
                    simp only [Except.ok.injEq] at hrun
                    subst hrun
                    constructor
                    · intro hnone
                      rw [hload] at hnone
                      exact Option.noConfusion hnone
                    · intro gt' hgt
                      rw [hload] at hgt
                      have : gt = gt' := Option.some.inj hgt
                      subst this
                      exact ⟨ts, hts, rfl⟩

theorem C9_ground_truth_handling_witness :
    envApex.loadTrees (dropRightStr 8 "data.samples" ++ ".trees") = none ∧
    resApex.kc = none := by
  refine ⟨rfl, ?_⟩
  exact (C9_ground_truth_handling envApex engApex paramsApex "data.samples" resApex
    rfl (congrArg Prod.snd runApex_eval)).1 rfl

/-- Claim C10 counterexample: a pathless input whose rate array contains a
zero makes the run die in precision selection with the `OverflowError` of the
`int(inf)` conversion, not with the unbound-name error the claim asserts for
every pathless input. -/
def paramsC10 : Params :=
  { sample_data :=
      { sites_position := [], sites_inference := [], sequence_length := 1,
        path := none },
    rec_rate := [0, 0], ma_mut_rate := 1, ms_mut_rate := 1, precision := none,
    num_threads := 0 }

theorem C10_counterexample :
    (run envApex engApex paramsC10).2 =
      Except.error "cannot convert float infinity to integer" ∧
    "cannot convert float infinity to integer" ≠
      "UnboundLocalError: local variable inf_prefix referenced before assignment" := by
  constructor
  · rw [run]
    rw [if_neg (by decide)]
    rw [show selectPrecision paramsC10.rec_rate paramsC10.ma_mut_rate
        paramsC10.ms_mut_rate paramsC10.precision =
        Except.error "cannot convert float infinity to integer" from by
      norm_num [selectPrecision, paramsC10]]
  · decide

/-- Claim C10 (amended): for an input whose sample-data handle has no
persisted path, a run that survives parameter selection (nonempty rate tail
and a successfully selected precision) fails with the unbound-name error on
`inf_prefix` before any engine stage is invoked; and any successful run
requires a non-`none` path ending in `.samples`. -/
theorem C10_pathless_unbound (env : Env) (eng : Engine) (p : Params) (prec : ℤ)
    (hrho : p.rec_rate.tail ≠ [])
    (hprec : selectPrecision p.rec_rate p.ma_mut_rate p.ms_mut_rate p.precision =
      Except.ok prec)
    (hpath : p.sample_data.path = none) :
    run env eng p = ([], Except.error
      "UnboundLocalError: local variable inf_prefix referenced before assignment") ∧
    ∀ (enva : Env) (enga : Engine) (q : Params) (res : Results),
      (run enva enga q).2 = Except.ok res →
      ∃ s, q.sample_data.path = some s ∧ endsWithStr ".samples" s = true := by
  constructor
  · rw [run, if_neg hrho, hprec, hpath]
  · intro enva enga q res hrun
    rw [run] at hrun
    split at hrun
    · simp at hrun
    · split at hrun
      · simp at hrun
      · split at hrun
        · simp at hrun
        · rename_i pth' heqp
          split at hrun
          · simp at hrun
          · rename_i hsfx
            rw [not_not] at hsfx
            exact ⟨pth', heqp, hsfx⟩

def paramsPathless : Params :=
  { sample_data :=
      { sites_position := [], sites_inference := [], sequence_length := 1,
        path := none },
    rec_rate := [0, 1], ma_mut_rate := 1, ms_mut_rate := 1,
    precision := some 5, num_threads := 0 }

theorem C10_pathless_unbound_witness :
    run envApex engApex paramsPathless =
      ([], Except.error
        "UnboundLocalError: local variable inf_prefix referenced before assignment") :=
  (C10_pathless_unbound envApex engApex paramsPathless 5 (by decide) rfl rfl).1

example : diffL [1, 3, 10] = [2, 7] := by norm_num [diffL]
example : cumsum [1, 2, 3] = [1, 3, 6] := by norm_num [cumsum]
example : medianQ [5, 1, 3] = 3 := by
  norm_num [medianQ, sortQ, List.insertionSort, List.orderedInsert]
example : medianQ [4, 1, 3, 10] = 7/2 := by
  norm_num [medianQ, sortQ, List.insertionSort, List.orderedInsert]
example : ceilNegLog10 (1/100) = 2 := ceilNegLog10_eq (by norm_num) (by norm_num)
example : ceilNegLog10 (1/101) = 3 := ceilNegLog10_eq (by norm_num) (by norm_num)
example : ceilNegLog10 100 = -2 := ceilNegLog10_eq (by norm_num) (by norm_num)
example : interp (1/2) [0, 1, 2] [0, 10, 30] = 5 := by norm_num [interp]
example : interp (3/2) [0, 1, 2] [0, 10, 30] = 20 := by norm_num [interp]
